import Mathlib

/-!
Verification of the interval / parsing logic of the two audio-splitting
scripts `split_audio_by_silence.py` and `split_audio_by_csv.py`.

Real-number quantities (seconds) are modelled by `ℚ`.  Python's
`round(x, 3)` and the `"%.3f"` format both round to the nearest multiple
of `1/1000`, ties to even; this is modelled exactly by `rhe` / `round3`.
-/

namespace AudioSplit

/-- Round-half-to-even of a rational to an integer (the rounding used by
Python's `round` and `"%.3f"` formatting, idealised over `ℚ`). -/
def rhe (q : ℚ) : ℤ :=
  let f := q.floor
  if q - f < 1/2 then f
  else if q - f > 1/2 then f + 1
  else if f % 2 = 0 then f else f + 1

theorem ratFloor_eq_intFloor (q : ℚ) : q.floor = ⌊q⌋ := rfl

/-- Model of Python `round(x, 3)`: round to the nearest multiple of `1/1000`,
ties to even. -/
def round3 (q : ℚ) : ℚ := (rhe (q * 1000) : ℚ) / 1000

/-- The emission part of the loop of `build_segments`
(`split_audio_by_silence.py`, lines 40–45): with the cursor at `cur`,
for each silence `(s, e)` emit `(cur, s)` when `s > cur` and advance the
cursor to `max cur e`. -/
def emitSegs (cur : ℚ) : List (ℚ × ℚ) → List (ℚ × ℚ)
  | [] => []
  | (s, e) :: rest => (if s > cur then [(cur, s)] else []) ++ emitSegs (max cur e) rest

/-- The cursor value after the loop of `build_segments`
(`split_audio_by_silence.py`, lines 41–45). -/
def finalCur (cur : ℚ) : List (ℚ × ℚ) → ℚ
  | [] => cur
  | (_, e) :: rest => finalCur (max cur e) rest

/-- The unfiltered, unrounded segment list built by `build_segments`
(`split_audio_by_silence.py`, lines 40–47): the loop's emissions followed by
the final segment `(cur, duration)` when `duration > cur`.  Generalised over
the initial cursor `cur` (the source starts at `0.0`). -/
def segsFrom (cur : ℚ) (silences : List (ℚ × ℚ)) (duration : ℚ) : List (ℚ × ℚ) :=
  emitSegs cur silences ++
    (if duration > finalCur cur silences then [(finalCur cur silences, duration)] else [])

/-- `build_segments` (`split_audio_by_silence.py`, lines 39–48): the cursor
loop starting at `0`, then
`[(round(a, 3), round(b, 3)) for a, b in segments if b - a > 0.01]`. -/
def build_segments (silences : List (ℚ × ℚ)) (duration : ℚ) : List (ℚ × ℚ) :=
  ((segsFrom 0 silences duration).filter (fun p => p.2 - p.1 > (1/100 : ℚ))).map
    (fun p => (round3 p.1, round3 p.2))

/-! ## Specification-side cursor algorithm (spec §4.1), for claim C1 -/

/-- One step of the spec's cursor algorithm, written from the spec's words:
"For each silence interval (s, e) in order: if s > cursor, emit segment
(cursor, s); advance cursor to max(cursor, e)."  The state is the pair
(cursor, segments emitted so far). -/
def specStep (st : ℚ × List (ℚ × ℚ)) (sil : ℚ × ℚ) : ℚ × List (ℚ × ℚ) :=
  (max st.1 sil.2, if sil.1 > st.1 then st.2 ++ [(st.1, sil.1)] else st.2)

/-- The spec's cursor algorithm (spec §4.1): cursor starts at 0; after the
silences are processed, emit (cursor, D) when D > cursor; the emitted
segments are then filtered (drop any emitted segment of duration ≤ 10 ms)
and their endpoints rounded to 3 decimal digits. -/
def specSegments (silences : List (ℚ × ℚ)) (D : ℚ) : List (ℚ × ℚ) :=
  let st := silences.foldl specStep (0, [])
  let emitted := if D > st.1 then st.2 ++ [(st.1, D)] else st.2
  (emitted.filter (fun p => ¬ (p.2 - p.1 ≤ (1/100 : ℚ)))).map
    (fun p => (round3 p.1, round3 p.2))

theorem foldl_specStep (silences : List (ℚ × ℚ)) :
    ∀ (c : ℚ) (acc : List (ℚ × ℚ)),
      silences.foldl specStep (c, acc) = (finalCur c silences, acc ++ emitSegs c silences) := by
  induction silences with
  | nil => intro c acc; simp [finalCur, emitSegs]
  | cons hd tl ih =>
    intro c acc
    obtain ⟨s, e⟩ := hd
    simp only [List.foldl_cons, specStep, finalCur, emitSegs]
    rw [ih]
    by_cases h : s > c <;> simp [h]

theorem filter_not_le_eq_filter_gt (l : List (ℚ × ℚ)) :
    l.filter (fun p => ¬ (p.2 - p.1 ≤ (1/100 : ℚ)))
      = l.filter (fun p => p.2 - p.1 > (1/100 : ℚ)) := by
  apply List.filter_congr
  intro p _
  exact decide_eq_decide.mpr not_le

/-- C1: for every silence list and duration, `build_segments` returns exactly
the segments of the spec's cursor algorithm (emit (cursor, s) when s > cursor,
advance cursor to max(cursor, e), final segment (cursor, D) when D > cursor),
with each emitted segment of duration ≤ 10 ms dropped and the endpoints of the
kept segments rounded to 3 decimal digits; in particular, for silences
[(2, 3), (5, 5.5)] and D = 10 the result is [(0, 2), (3, 5), (5.5, 10)].
(Proved for all inputs, so in particular for those with non-decreasing starts
and end ≥ start.) -/
theorem build_segments_eq_specSegments :
    (∀ (silences : List (ℚ × ℚ)) (D : ℚ), build_segments silences D = specSegments silences D)
      ∧ build_segments [(2, 3), (5, 11/2)] 10 = [(0, 2), (3, 5), (11/2, 10)] := by
  constructor
  · intro silences D
    unfold specSegments
    rw [foldl_specStep]
    simp only [List.nil_append]
    rw [filter_not_le_eq_filter_gt]
    unfold build_segments segsFrom
    by_cases h : D > finalCur 0 silences <;> simp [h]
  · simp only [build_segments, segsFrom, emitSegs, finalCur, round3, rhe, ratFloor_eq_intFloor]
    norm_num [List.filter, List.map]

theorem round3_zero : round3 0 = 0 := by
  simp only [round3, rhe, ratFloor_eq_intFloor]
  norm_num

/-- C3 counterexample: D = 1/200 is a positive duration, yet
`build_segments [] (1/200)` is `[]`, not `[(0, 1/200)]` — the 10 ms filter
drops the single segment. -/
theorem build_segments_empty_small_D :
    (0 : ℚ) < 1/200 ∧ build_segments [] (1/200) ≠ [(0, 1/200)] := by
  constructor
  · norm_num
  · simp only [build_segments, segsFrom, emitSegs, finalCur]
    norm_num [List.filter]

/-- C3 amended: for every duration D greater than 10 ms, `build_segments`
applied to an empty silence list returns exactly one segment, namely
(0, D) with D rounded to 3 decimal digits. -/
theorem build_segments_empty (D : ℚ) (h : 1/100 < D) :
    build_segments [] D = [(0, round3 D)] := by
  have h0 : (0 : ℚ) < D := by linarith
  have h1 : (100 : ℚ)⁻¹ < D := by rw [inv_eq_one_div]; exact h
  simp only [build_segments, segsFrom, emitSegs, finalCur, List.nil_append, gt_iff_lt,
    if_pos h0]
  simp [List.filter_cons, h1, round3_zero]

theorem build_segments_empty_witness :
    (1 : ℚ)/100 < 10 ∧ build_segments [] 10 = [(0, round3 10)] :=
  ⟨by norm_num, build_segments_empty 10 (by norm_num)⟩

/-! ## Silence-marker pairing (`detect_silences`), for claim C4 -/

/-- The pairing loop of `detect_silences` (`split_audio_by_silence.py`,
lines 28–37): walk the start and end timestamp lists with two cursors;
when the current end is ≥ the current start, pair them and advance both;
otherwise skip the end. -/
def pairSilences : List ℚ → List ℚ → List (ℚ × ℚ)
  | [], _ => []
  | _ :: _, [] => []
  | s :: ss, e :: es =>
    if e ≥ s then (s, e) :: pairSilences ss es
    else pairSilences (s :: ss) es
termination_by l1 l2 => l1.length + l2.length
decreasing_by all_goals simp_wf <;> omega

/-- The pairing policy in the spec's words (spec §4.2): each start is paired
with the earliest unconsumed end whose timestamp is ≥ the start's timestamp;
ends with no matching unconsumed start are skipped; a start with no remaining
end produces no pair. -/
def specPair : List ℚ → List ℚ → List (ℚ × ℚ)
  | [], _ => []
  | s :: ss, es =>
    match es.dropWhile (fun e => e < s) with
    | [] => []
    | e :: es2 => (s, e) :: specPair ss es2

/-- C4: the pairing loop of `detect_silences` realises exactly the spec's
pairing policy: each start is paired with the earliest unconsumed end ≥ it,
smaller ends are skipped, and a trailing start with no remaining end
produces no pair. -/
theorem pairSilences_eq_specPair (starts ends : List ℚ) :
    pairSilences starts ends = specPair starts ends := by
  induction ends generalizing starts with
  | nil =>
    cases starts with
    | nil => simp [pairSilences, specPair]
    | cons s ss => simp [pairSilences, specPair, List.dropWhile]
  | cons e es ih =>
    cases starts with
    | nil => simp [pairSilences, specPair]
    | cons s ss =>
      by_cases h : e ≥ s
      · have hnot : ¬ (e < s) := not_lt.mpr h
        rw [pairSilences, if_pos h, specPair]
        simp only [List.dropWhile_cons, decide_eq_true_eq, if_neg hnot]
        rw [ih]
      · have hlt : e < s := not_le.mp h
        rw [pairSilences, if_neg h, ih]
        conv_lhs => rw [specPair]
        conv_rhs => rw [specPair]
        simp only [List.dropWhile_cons, decide_eq_true_eq, if_pos hlt]

/-! ## Properties of the rounding -/

theorem rhe_le (q : ℚ) : (rhe q : ℚ) ≤ q + 1/2 := by
  have hf : (⌊q⌋ : ℚ) ≤ q := Int.floor_le q
  have hf2 : q < ⌊q⌋ + 1 := Int.lt_floor_add_one q
  simp only [rhe, ratFloor_eq_intFloor]
  split_ifs <;> push_cast <;> linarith

theorem le_rhe (q : ℚ) : q - 1/2 ≤ (rhe q : ℚ) := by
  have hf : (⌊q⌋ : ℚ) ≤ q := Int.floor_le q
  have hf2 : q < ⌊q⌋ + 1 := Int.lt_floor_add_one q
  simp only [rhe, ratFloor_eq_intFloor]
  split_ifs <;> push_cast <;> linarith

theorem floor_le_rhe (q : ℚ) : ⌊q⌋ ≤ rhe q := by
  simp only [rhe, ratFloor_eq_intFloor]
  split_ifs <;> omega

theorem rhe_le_floor_add_one (q : ℚ) : rhe q ≤ ⌊q⌋ + 1 := by
  simp only [rhe, ratFloor_eq_intFloor]
  split_ifs <;> omega

theorem rhe_mono {a b : ℚ} (h : a ≤ b) : rhe a ≤ rhe b := by
  rcases lt_or_eq_of_le (Int.floor_le_floor h) with hlt | heq
  · calc rhe a ≤ ⌊a⌋ + 1 := rhe_le_floor_add_one a
      _ ≤ ⌊b⌋ := hlt
      _ ≤ rhe b := floor_le_rhe b
  · simp only [rhe, ratFloor_eq_intFloor, heq]
    split_ifs <;> first | omega | (exfalso; linarith)

theorem round3_mono {a b : ℚ} (h : a ≤ b) : round3 a ≤ round3 b := by
  have h1 : rhe (a * 1000) ≤ rhe (b * 1000) := rhe_mono (by linarith)
  have h2 : ((rhe (a * 1000) : ℚ)) ≤ ((rhe (b * 1000) : ℚ)) := Int.cast_le.mpr h1
  unfold round3
  linarith

theorem round3_duration {a b : ℚ} (h : 1/100 < b - a) : 1/100 ≤ round3 b - round3 a := by
  have h1 : (rhe (a * 1000) : ℚ) ≤ a * 1000 + 1/2 := rhe_le _
  have h2 : b * 1000 - 1/2 ≤ (rhe (b * 1000) : ℚ) := le_rhe _
  have h3 : (9 : ℚ) < (rhe (b * 1000) : ℚ) - (rhe (a * 1000) : ℚ) := by linarith
  have h4 : (9 : ℤ) < rhe (b * 1000) - rhe (a * 1000) := by exact_mod_cast h3
  have h5 : (10 : ℚ) ≤ (rhe (b * 1000) : ℚ) - (rhe (a * 1000) : ℚ) := by
    have : (10 : ℤ) ≤ rhe (b * 1000) - rhe (a * 1000) := by omega
    exact_mod_cast this
  unfold round3
  linarith

/-! ## Order and duration invariants of `build_segments`, for claim C10 -/

theorem segsFrom_cons (c s e D : ℚ) (rest : List (ℚ × ℚ)) :
    segsFrom c ((s, e) :: rest) D
      = (if s > c then [(c, s)] else []) ++ segsFrom (max c e) rest D := by
  simp [segsFrom, emitSegs, finalCur, List.append_assoc]

theorem segsFrom_start_ge (sils : List (ℚ × ℚ)) :
    ∀ (c D : ℚ), ∀ p ∈ segsFrom c sils D, c ≤ p.1 := by
  induction sils with
  | nil =>
    intro c D p hp
    simp only [segsFrom, emitSegs, finalCur, List.nil_append] at hp
    split_ifs at hp with h
    · simp only [List.mem_singleton] at hp
      simp [hp]
    · simp at hp
  | cons hd tl ih =>
    intro c D p hp
    obtain ⟨s, e⟩ := hd
    rw [segsFrom_cons] at hp
    rcases List.mem_append.mp hp with h1 | h2
    · split_ifs at h1 with h
      · simp only [List.mem_singleton] at h1
        simp [h1]
      · simp at h1
    · exact le_trans (le_max_left c e) (ih (max c e) D p h2)

theorem segsFrom_start_lt_end (sils : List (ℚ × ℚ)) :
    ∀ (c D : ℚ), ∀ p ∈ segsFrom c sils D, p.1 < p.2 := by
  induction sils with
  | nil =>
    intro c D p hp
    simp only [segsFrom, emitSegs, finalCur, List.nil_append] at hp
    split_ifs at hp with h
    · simp only [List.mem_singleton] at hp
      subst hp
      exact h
    · simp at hp
  | cons hd tl ih =>
    intro c D p hp
    obtain ⟨s, e⟩ := hd
    rw [segsFrom_cons] at hp
    rcases List.mem_append.mp hp with h1 | h2
    · split_ifs at h1 with h
      · simp only [List.mem_singleton] at h1
        subst h1
        exact h
      · simp at h1
    · exact ih (max c e) D p h2

theorem segsFrom_pairwise (sils : List (ℚ × ℚ)) (hse : ∀ p ∈ sils, p.1 ≤ p.2) :
    ∀ (c D : ℚ), List.Pairwise (fun p q : ℚ × ℚ => p.2 ≤ q.1) (segsFrom c sils D) := by
  induction sils with
  | nil =>
    intro c D
    simp only [segsFrom, emitSegs, finalCur, List.nil_append]
    split_ifs <;> simp
  | cons hd tl ih =>
    intro c D
    obtain ⟨s, e⟩ := hd
    have hse_hd : s ≤ e := hse (s, e) (List.mem_cons_self _ _)
    have hse_tl : ∀ p ∈ tl, p.1 ≤ p.2 := fun p hp => hse p (List.mem_cons_of_mem _ hp)
    rw [segsFrom_cons]
    rw [List.pairwise_append]
    refine ⟨?_, ih hse_tl (max c e) D, ?_⟩
    · split_ifs <;> simp
    · intro a ha b hb
      have hb1 : max c e ≤ b.1 := segsFrom_start_ge tl (max c e) D b hb
      split_ifs at ha with h
      · simp only [List.mem_singleton] at ha
        subst ha
        exact le_trans (le_trans hse_hd (le_max_right c e)) hb1
      · simp at ha

/-- C10 amended: for every silence list in which each interval has end ≥
start, `build_segments` returns an ordered, pairwise non-overlapping
sequence: each interval's start is ≥ the previous interval's end, and each
returned interval has duration ≥ 0.01 (the strict bound > 0.01 holds for
the unrounded segments; after rounding the duration can equal 0.01
exactly). -/
theorem build_segments_ordered (sils : List (ℚ × ℚ)) (D : ℚ)
    (hse : ∀ p ∈ sils, p.1 ≤ p.2) :
    List.Pairwise (fun p q : ℚ × ℚ => p.2 ≤ q.1) (build_segments sils D)
      ∧ ∀ p ∈ build_segments sils D, 1/100 ≤ p.2 - p.1 := by
  constructor
  · unfold build_segments
    have hpw := (segsFrom_pairwise sils hse 0 D).sublist
      ((segsFrom 0 sils D).filter_sublist :
        List.Sublist ((segsFrom 0 sils D).filter (fun p => p.2 - p.1 > (1/100 : ℚ)))
          (segsFrom 0 sils D))
    exact hpw.map _ (fun a b hab => round3_mono hab)
  · intro p hp
    unfold build_segments at hp
    rw [List.mem_map] at hp
    obtain ⟨q, hq, rfl⟩ := hp
    rw [List.mem_filter] at hq
    have hdur : (1/100 : ℚ) < q.2 - q.1 := by
      have := hq.2
      simpa using this
    exact round3_duration hdur

theorem build_segments_ordered_witness :
    (∀ p ∈ [((2 : ℚ), (3 : ℚ))], p.1 ≤ p.2)
      ∧ (List.Pairwise (fun p q : ℚ × ℚ => p.2 ≤ q.1) (build_segments [(2, 3)] 10)
          ∧ ∀ p ∈ build_segments [(2, 3)] 10, 1/100 ≤ p.2 - p.1) :=
  ⟨by norm_num, build_segments_ordered [(2, 3)] 10 (by norm_num)⟩

/-- C10 counterexample: for silences [(0.0101, 10)] (a valid input: start ≤
end) and D = 1, `build_segments` returns [(0, 0.01)], whose duration is
exactly 0.01, not > 0.01: the unrounded segment (0, 0.0101) passes the
strict 10 ms filter but its rounded duration collapses to 0.01. -/
theorem build_segments_duration_not_strict :
    (∀ p ∈ [((101 : ℚ)/10000, (10 : ℚ))], p.1 ≤ p.2)
      ∧ build_segments [(101/10000, 10)] 1 = [(0, 1/100)]
      ∧ ¬ (∀ p ∈ build_segments [(101/10000, 10)] 1, (1/100 : ℚ) < p.2 - p.1) := by
  have heval : build_segments [((101 : ℚ)/10000, (10 : ℚ))] 1 = [(0, 1/100)] := by
    simp only [build_segments, segsFrom, emitSegs, finalCur, round3, rhe, ratFloor_eq_intFloor]
    norm_num [List.filter, List.map]
    simp only [Int.fract]
    norm_num
  refine ⟨by norm_num, heval, ?_⟩
  rw [heval]
  intro hall
  have := hall (0, 1/100) (List.mem_singleton_self _)
  norm_num at this

/-! ## Exact-cover property of the complement computation, for claim C2 -/

/-- Number of intervals of `L` (taken half-open, `[a, b)`) containing `x`. -/
def covCount (x : ℚ) (L : List (ℚ × ℚ)) : ℕ :=
  (L.filter (fun p => p.1 ≤ x ∧ x < p.2)).length

/-- Clip an interval to `[0, D]`. -/
def clip (D : ℚ) (p : ℚ × ℚ) : ℚ × ℚ := (max p.1 0, min p.2 D)

/-- A silence list is sorted and non-overlapping, with non-negative
timestamps: every start is ≥ the running lower bound `t`, every end ≥ its
start, and the next start is ≥ the previous end. -/
def silChain : ℚ → List (ℚ × ℚ) → Prop
  | _, [] => True
  | t, (s, e) :: rest => t ≤ s ∧ s ≤ e ∧ silChain e rest

/-- A list of (half-open) intervals exactly covers `[0, D)`: every point of
`[0, D)` lies in exactly one of them, and no point outside is in any. -/
def ExactlyCovers (L : List (ℚ × ℚ)) (D : ℚ) : Prop :=
  ∀ x : ℚ, covCount x L = if 0 ≤ x ∧ x < D then 1 else 0

theorem covCount_nil (x : ℚ) : covCount x [] = 0 := rfl

theorem covCount_cons (x : ℚ) (p : ℚ × ℚ) (L : List (ℚ × ℚ)) :
    covCount x (p :: L) = (if p.1 ≤ x ∧ x < p.2 then 1 else 0) + covCount x L := by
  by_cases h : p.1 ≤ x ∧ x < p.2
  · simp [covCount, List.filter_cons, h, Nat.add_comm]
  · simp [covCount, List.filter_cons, h]

theorem covCount_append (x : ℚ) (L1 L2 : List (ℚ × ℚ)) :
    covCount x (L1 ++ L2) = covCount x L1 + covCount x L2 := by
  simp [covCount, List.filter_append]

theorem clip_pair (D a b : ℚ) : clip D (a, b) = (max a 0, min b D) := rfl

theorem covCount_singleton (x a b : ℚ) :
    covCount x [(a, b)] = if a ≤ x ∧ x < b then 1 else 0 := by
  rw [covCount_cons, covCount_nil]
  simp

theorem covCount_cons_pair (x a b : ℚ) (L : List (ℚ × ℚ)) :
    covCount x ((a, b) :: L) = (if a ≤ x ∧ x < b then 1 else 0) + covCount x L := by
  rw [covCount_cons]

theorem cover_step (c s e D x : ℚ) (hcs : c ≤ s) (hse : s ≤ e) :
    ((if s > c then (if c ≤ x ∧ x < min s D then 1 else 0) else 0) : ℕ)
      + (if s ≤ x ∧ x < min e D then 1 else 0)
      + (if e ≤ x ∧ x < D then 1 else 0)
    = if c ≤ x ∧ x < D then 1 else 0 := by
  simp only [lt_min_iff, gt_iff_lt, ← not_lt]
  by_cases h1 : x < c <;> by_cases h2 : x < s <;> by_cases h3 : x < e <;>
    by_cases h4 : x < D <;> by_cases h5 : c < s <;>
    simp [h1, h2, h3, h4, h5] <;>
    first | rfl | omega | (exfalso; linarith)

theorem segsFrom_cover (sils : List (ℚ × ℚ)) :
    ∀ (c D x : ℚ), 0 ≤ c → silChain c sils →
      covCount x ((segsFrom c sils D).map (clip D) ++ sils.map (clip D))
        = if c ≤ x ∧ x < D then 1 else 0 := by
  induction sils with
  | nil =>
    intro c D x hc _
    simp only [segsFrom, emitSegs, finalCur, List.nil_append, List.map_nil, List.append_nil]
    split_ifs with h hx hx2
    · simp only [List.map_cons, List.map_nil, clip_pair, max_eq_left hc, min_self]
      rw [covCount_singleton, if_pos hx]
    · simp only [List.map_cons, List.map_nil, clip_pair, max_eq_left hc, min_self]
      rw [covCount_singleton, if_neg hx]
    · exact absurd hx2.2 (not_lt.mpr (le_trans (not_lt.mp h) hx2.1))
    · simp only [List.map_nil]
      rw [covCount_nil]
  | cons hd tl ih =>
    intro c D x hc hchain
    obtain ⟨s, e⟩ := hd
    obtain ⟨hcs, hse, hchain2⟩ := hchain
    have hmax : max c e = e := max_eq_right (le_trans hcs hse)
    have hc0 : max c 0 = c := max_eq_left hc
    have hs0 : max s 0 = s := max_eq_left (le_trans hc hcs)
    have hih := ih e D x (le_trans hc (le_trans hcs hse)) hchain2
    rw [covCount_append] at hih
    rw [segsFrom_cons, hmax]
    simp only [List.map_append, List.map_cons]
    rw [covCount_append, covCount_append]
    rw [apply_ite (List.map (clip D)), apply_ite (covCount x)]
    simp only [List.map_cons, List.map_nil, clip_pair]
    rw [covCount_singleton, covCount_nil, covCount_cons_pair, hc0, hs0]
    have hstep := cover_step c s e D x hcs hse
    omega

/-- C2 amended: for every sorted, non-overlapping, non-negative silence list
and every duration D, the segments of the cursor complement BEFORE the 10 ms
filter and the rounding (the list `segments` built by lines 40–47 of
`build_segments`), together with the silences, each clipped to `[0, D]` and
taken half-open, exactly cover `[0, D)`: every point of `[0, D)` lies in
exactly one interval (no gaps, no overlaps). -/
theorem segsFrom_exactly_covers (sils : List (ℚ × ℚ)) (D : ℚ) (h : silChain 0 sils) :
    ExactlyCovers ((segsFrom 0 sils D).map (clip D) ++ sils.map (clip D)) D :=
  fun x => segsFrom_cover sils 0 D x le_rfl h

theorem segsFrom_exactly_covers_witness :
    silChain 0 [((2 : ℚ), (3 : ℚ))]
      ∧ ExactlyCovers ((segsFrom 0 [(2, 3)] 10).map (clip 10)
          ++ [((2 : ℚ), (3 : ℚ))].map (clip 10)) 10 :=
  ⟨by simp [silChain]; norm_num,
   segsFrom_exactly_covers [(2, 3)] 10 (by simp [silChain]; norm_num)⟩

/-- C2 counterexample: for the sorted, non-overlapping silence list
[(0.005, 1)] and D = 2, the segments actually returned by `build_segments`
together with the silences, each clipped to [0, 2], do NOT exactly cover
[0, 2): the 10 ms filter drops the segment (0, 0.005), so the point 0.0025
is covered zero times. -/
theorem build_segments_cover_gap :
    silChain 0 [((1 : ℚ)/200, 1)]
      ∧ ¬ ExactlyCovers ((build_segments [(1/200, 1)] 2).map (clip 2)
            ++ [((1 : ℚ)/200, 1)].map (clip 2)) 2 := by
  have hchain : silChain 0 [((1 : ℚ)/200, 1)] := by
    simp [silChain]
    norm_num
  refine ⟨hchain, ?_⟩
  intro hcov
  have heval : build_segments [((1 : ℚ)/200, 1)] 2 = [(1, 2)] := by
    simp only [build_segments, segsFrom, emitSegs, finalCur, round3, rhe, ratFloor_eq_intFloor]
    norm_num [List.filter, List.map]
  have h0 := hcov (1/400)
  rw [heval] at h0
  norm_num [covCount, List.filter, clip, List.map] at h0

/-! ## Decimal strings: the model of Python `float()` and `"%.3f"` -/

/-- The decimal digit character for `n` (`n < 10`). -/
def digitChar (n : ℕ) : Char :=
  match n with
  | 0 => '0' | 1 => '1' | 2 => '2' | 3 => '3' | 4 => '4'
  | 5 => '5' | 6 => '6' | 7 => '7' | 8 => '8' | 9 => '9'
  | _ => '*'

def digitVal (c : Char) : ℕ := c.toNat - 48

def isDigits (l : List Char) : Bool := l.all (fun c => c.isDigit)

def digitsToNat (l : List Char) : ℕ := l.foldl (fun a c => 10 * a + digitVal c) 0

def natToDigitsAux (n : ℕ) (acc : List Char) : List Char :=
  if n = 0 then acc
  else natToDigitsAux (n / 10) (digitChar (n % 10) :: acc)
termination_by n
decreasing_by exact Nat.div_lt_self (Nat.pos_of_ne_zero (by assumption)) (by norm_num)

/-- The decimal digits of `n`, most significant first (`"0"` for 0). -/
def natToDigits (n : ℕ) : List Char :=
  if n = 0 then ['0'] else natToDigitsAux n []

/-- Exactly three decimal digits of `m < 1000`, zero-padded. -/
def pad3 (m : ℕ) : List Char :=
  [digitChar (m / 100), digitChar (m / 10 % 10), digitChar (m % 10)]

/-- Model of the `"%.3f"` format used by `write_timestamps`
(`split_audio_by_silence.py`, line 54): round the value to 3 decimals (ties
to even) and print it with exactly three fractional digits. -/
def format3 (q : ℚ) : List Char :=
  (if rhe (q * 1000) < 0 then ['-'] else [])
    ++ natToDigits ((rhe (q * 1000)).natAbs / 1000)
    ++ '.' :: pad3 ((rhe (q * 1000)).natAbs % 1000)

/-- Split a character list at its first '.', if any. -/
def breakDot : List Char → List Char × Option (List Char)
  | [] => ([], none)
  | c :: cs =>
    if c = '.' then ([], some cs)
    else
      let r := breakDot cs
      (c :: r.1, r.2)

/-- Modelled from the spec: Python `float()` on an unsigned string. Restricted
to plain decimal notation (digits with at most one '.', at least one digit),
the only shape relevant to the CSV format of spec §6. -/
def parseUnsigned (l : List Char) : Option ℚ :=
  match breakDot l with
  | (ip, none) =>
    if ip ≠ [] ∧ isDigits ip then some ((digitsToNat ip : ℚ)) else none
  | (ip, some fp) =>
    if (ip ≠ [] ∨ fp ≠ []) ∧ isDigits ip ∧ isDigits fp then
      some ((digitsToNat ip : ℚ) + (digitsToNat fp : ℚ) / 10 ^ fp.length)
    else none

/-- Modelled from the spec: Python `float()` (used at
`split_audio_by_csv.py`, lines 24–25) on plain decimal notation with an
optional sign; any other string fails to parse. -/
def parseFloatChars : List Char → Option ℚ
  | [] => none
  | c :: cs =>
    if c = '-' then (parseUnsigned cs).map (fun q => -q)
    else if c = '+' then parseUnsigned cs
    else parseUnsigned (c :: cs)

def parseFloat (s : String) : Option ℚ := parseFloatChars s.data

theorem parseFloatChars_cons (c : Char) (cs : List Char) :
    parseFloatChars (c :: cs) =
      if c = '-' then (parseUnsigned cs).map (fun q => -q)
      else if c = '+' then parseUnsigned cs
      else parseUnsigned (c :: cs) := rfl

/-- Model of Python `str.strip()`: drop leading and trailing whitespace. -/
def pyStrip (l : List Char) : List Char :=
  ((l.dropWhile Char.isWhitespace).reverse.dropWhile Char.isWhitespace).reverse

def stripS (s : String) : String := String.mk (pyStrip s.data)

/-- `parse_timestamps` (`split_audio_by_csv.py`, lines 14–29), modelled on
the list of CSV rows (each row the list of its column strings, as produced
by the CSV reader): the loop appends `(float(row[0].strip()),
float(row[1].strip()))` for each row, skipping empty rows, rows with fewer
than two columns, and rows where either parse raises. -/
def parseRows (acc : List (ℚ × ℚ)) : List (List String) → List (ℚ × ℚ)
  | [] => acc
  | row :: rest =>
    match row with
    | [] => parseRows acc rest
    | [_] => parseRows acc rest
    | c0 :: c1 :: _ =>
      match parseFloat (stripS c0), parseFloat (stripS c1) with
      | some s, some e => parseRows (acc ++ [(s, e)]) rest
      | _, _ => parseRows acc rest

def parse_timestamps (rows : List (List String)) : List (ℚ × ℚ) := parseRows [] rows

/-- Specification-side description of §4.3 for a single row: a row yields
(s, e) exactly when it has at least two columns and its first two columns
parse as real numbers; every other row is skipped. -/
def rowSpec (row : List String) : Option (ℚ × ℚ) :=
  match row with
  | c0 :: c1 :: _ =>
    match parseFloat (stripS c0), parseFloat (stripS c1) with
    | some s, some e => some (s, e)
    | _, _ => none
  | _ => none

/-- The segment filter of `main` (`split_audio_by_csv.py`, line 70):
`[(s, e) for s, e in segments_raw if e > s and (e - s) >= args.min_seg]`. -/
def filterSegments (minSeg : ℚ) (segs : List (ℚ × ℚ)) : List (ℚ × ℚ) :=
  segs.filter (fun p => p.2 > p.1 ∧ p.2 - p.1 ≥ minSeg)

/-- `write_timestamps` (`split_audio_by_silence.py`, lines 50–54), modelled
as the list of CSV rows it writes: one row per segment, both cells formatted
with `"%.3f"`. -/
def write_timestamps (segs : List (ℚ × ℚ)) : List (List String) :=
  segs.map (fun p => [String.mk (format3 p.1), String.mk (format3 p.2)])

theorem digitChar_isDigit {n : ℕ} (h : n < 10) : (digitChar n).isDigit = true := by
  interval_cases n <;> rfl

theorem digitVal_digitChar {n : ℕ} (h : n < 10) : digitVal (digitChar n) = n := by
  interval_cases n <;> rfl

theorem isDigit_ne_dot {c : Char} (h : c.isDigit = true) : c ≠ '.' := by
  rintro rfl
  exact absurd h (by decide)

theorem isDigit_ne_dash {c : Char} (h : c.isDigit = true) : c ≠ '-' := by
  rintro rfl
  exact absurd h (by decide)

theorem isDigit_ne_plus {c : Char} (h : c.isDigit = true) : c ≠ '+' := by
  rintro rfl
  exact absurd h (by decide)

theorem isDigit_not_ws {c : Char} (h : c.isDigit = true) : c.isWhitespace = false := by
  by_contra hws
  rw [Bool.not_eq_false] at hws
  simp only [Char.isWhitespace, Bool.or_eq_true, decide_eq_true_eq] at hws
  rcases hws with ((h1 | h1) | h1) | h1 <;> subst h1 <;> exact absurd h (by decide)

theorem isDigits_mem {l : List Char} (h : isDigits l = true) :
    ∀ c ∈ l, c.isDigit = true := by
  intro c hc
  exact List.all_eq_true.mp h c hc

theorem digitsToNat_fold (l : List Char) :
    ∀ a : ℕ, l.foldl (fun a c => 10 * a + digitVal c) a
      = a * 10 ^ l.length + digitsToNat l := by
  induction l with
  | nil => intro a; simp [digitsToNat]
  | cons c cs ih =>
    intro a
    simp only [List.foldl_cons, digitsToNat, List.length_cons]
    rw [ih (10 * a + digitVal c), ih (10 * 0 + digitVal c)]
    ring

theorem digitsToNat_cons (c : Char) (l : List Char) :
    digitsToNat (c :: l) = digitVal c * 10 ^ l.length + digitsToNat l := by
  simp only [digitsToNat, List.foldl_cons]
  rw [digitsToNat_fold]
  simp only [digitsToNat]
  ring

theorem natToDigitsAux_eq (n : ℕ) :
    ∀ acc, digitsToNat (natToDigitsAux n acc) = n * 10 ^ acc.length + digitsToNat acc := by
  induction n using Nat.strong_induction_on with
  | _ n ih =>
    intro acc
    rw [natToDigitsAux]
    split_ifs with h
    · simp [h]
    · have hlt : n / 10 < n := Nat.div_lt_self (Nat.pos_of_ne_zero h) (by norm_num)
      rw [ih _ hlt (digitChar (n % 10) :: acc)]
      rw [digitsToNat_cons, digitVal_digitChar (Nat.mod_lt _ (by norm_num))]
      have hshape : n / 10 * 10 ^ (digitChar (n % 10) :: acc).length
            + (n % 10 * 10 ^ acc.length + digitsToNat acc)
          = (10 * (n / 10) + n % 10) * 10 ^ acc.length + digitsToNat acc := by
        simp only [List.length_cons, pow_succ]
        ring
      rw [hshape, Nat.div_add_mod]

theorem natToDigitsAux_digits (n : ℕ) :
    ∀ acc, isDigits acc = true → isDigits (natToDigitsAux n acc) = true := by
  induction n using Nat.strong_induction_on with
  | _ n ih =>
    intro acc hacc
    rw [natToDigitsAux]
    split_ifs with h
    · exact hacc
    · have hlt : n / 10 < n := Nat.div_lt_self (Nat.pos_of_ne_zero h) (by norm_num)
      refine ih _ hlt _ ?_
      simp [isDigits, digitChar_isDigit (Nat.mod_lt _ (by norm_num : (0:ℕ) < 10))]
      exact isDigits_mem hacc

theorem natToDigitsAux_ne_nil (n : ℕ) :
    ∀ acc, acc ≠ [] → natToDigitsAux n acc ≠ [] := by
  induction n using Nat.strong_induction_on with
  | _ n ih =>
    intro acc hacc
    rw [natToDigitsAux]
    split_ifs with h
    · exact hacc
    · have hlt : n / 10 < n := Nat.div_lt_self (Nat.pos_of_ne_zero h) (by norm_num)
      exact ih _ hlt _ (by simp)

theorem natToDigits_digits (n : ℕ) : isDigits (natToDigits n) = true := by
  unfold natToDigits
  split_ifs with h
  · rfl
  · exact natToDigitsAux_digits n [] rfl

theorem digitsToNat_natToDigits (n : ℕ) : digitsToNat (natToDigits n) = n := by
  unfold natToDigits
  split_ifs with h
  · simp [h]
    rfl
  · rw [natToDigitsAux_eq]
    simp [digitsToNat]

theorem natToDigits_ne_nil (n : ℕ) : natToDigits n ≠ [] := by
  unfold natToDigits
  split_ifs with h
  · simp
  · rw [natToDigitsAux]
    rw [if_neg h]
    exact natToDigitsAux_ne_nil _ _ (by simp)

theorem breakDot_no_dot (l : List Char) (h : ∀ c ∈ l, c ≠ '.') :
    breakDot l = (l, none) := by
  induction l with
  | nil => rfl
  | cons c cs ih =>
    have hc : c ≠ '.' := h c (List.mem_cons_self _ _)
    simp only [breakDot, if_neg hc]
    rw [ih (fun d hd => h d (List.mem_cons_of_mem _ hd))]

theorem breakDot_append (l1 l2 : List Char) (h : ∀ c ∈ l1, c ≠ '.') :
    breakDot (l1 ++ '.' :: l2) = (l1, some l2) := by
  induction l1 with
  | nil => simp [breakDot]
  | cons c cs ih =>
    have hc : c ≠ '.' := h c (List.mem_cons_self _ _)
    simp only [List.cons_append, breakDot, if_neg hc, List.append_eq]
    rw [ih (fun d hd => h d (List.mem_cons_of_mem _ hd))]

theorem pad3_digits {m : ℕ} (h : m < 1000) : isDigits (pad3 m) = true := by
  have h1 : m / 100 < 10 := by omega
  have h2 : m / 10 % 10 < 10 := by omega
  have h3 : m % 10 < 10 := by omega
  simp [pad3, isDigits, digitChar_isDigit h1, digitChar_isDigit h2, digitChar_isDigit h3]

theorem digitsToNat_pad3 {m : ℕ} (h : m < 1000) : digitsToNat (pad3 m) = m := by
  have h1 : m / 100 < 10 := by omega
  have h2 : m / 10 % 10 < 10 := by omega
  have h3 : m % 10 < 10 := by omega
  simp only [pad3, digitsToNat, List.foldl_cons, List.foldl_nil]
  rw [digitVal_digitChar h1, digitVal_digitChar h2, digitVal_digitChar h3]
  omega

theorem parseUnsigned_format (m : ℕ) :
    parseUnsigned (natToDigits (m / 1000) ++ '.' :: pad3 (m % 1000))
      = some ((m : ℚ) / 1000) := by
  have hmod : m % 1000 < 1000 := Nat.mod_lt _ (by norm_num)
  have hip := natToDigits_digits (m / 1000)
  have hfp := pad3_digits hmod
  have hnodot : ∀ c ∈ natToDigits (m / 1000), c ≠ '.' :=
    fun c hc => isDigit_ne_dot (isDigits_mem hip c hc)
  unfold parseUnsigned
  rw [breakDot_append _ _ hnodot]
  dsimp only
  rw [if_pos ⟨Or.inl (natToDigits_ne_nil _), hip, hfp⟩]
  rw [digitsToNat_natToDigits, digitsToNat_pad3 hmod]
  have hlen : (pad3 (m % 1000)).length = 3 := rfl
  rw [hlen]
  congr 1
  have hdm : (1000 : ℚ) * ((m / 1000 : ℕ) : ℚ) + ((m % 1000 : ℕ) : ℚ) = (m : ℚ) := by
    exact_mod_cast congrArg (fun k : ℕ => (k : ℚ)) (Nat.div_add_mod m 1000)
  have h1000 : ((10 : ℚ) ^ 3) = 1000 := by norm_num
  rw [h1000]
  field_simp
  linarith

theorem parseFloatChars_format3 (q : ℚ) :
    parseFloatChars (format3 q) = some (round3 q) := by
  have hr : round3 q = ((rhe (q * 1000) : ℤ) : ℚ) / 1000 := rfl
  unfold format3
  by_cases hneg : rhe (q * 1000) < 0
  · rw [if_pos hneg, List.singleton_append, List.cons_append]
    rw [parseFloatChars_cons, if_pos rfl]
    rw [parseUnsigned_format]
    rw [hr]
    have habs : (((rhe (q * 1000)).natAbs : ℕ) : ℚ) = -((rhe (q * 1000) : ℤ) : ℚ) := by
      rw [Int.cast_natAbs, abs_of_neg hneg, Int.cast_neg]
    simp [habs]
    ring
  · rw [if_neg hneg, List.nil_append]
    obtain ⟨c, cs, hcons⟩ :=
      List.exists_cons_of_ne_nil (natToDigits_ne_nil ((rhe (q * 1000)).natAbs / 1000))
    have hcdig : c.isDigit = true := by
      have hd := natToDigits_digits ((rhe (q * 1000)).natAbs / 1000)
      rw [hcons] at hd
      exact isDigits_mem hd c (List.mem_cons_self _ _)
    rw [hcons, List.cons_append]
    rw [parseFloatChars_cons, if_neg (isDigit_ne_dash hcdig), if_neg (isDigit_ne_plus hcdig)]
    rw [← List.cons_append, ← hcons]
    rw [parseUnsigned_format]
    rw [hr]
    have habs : (((rhe (q * 1000)).natAbs : ℕ) : ℚ) = ((rhe (q * 1000) : ℤ) : ℚ) := by
      rw [Int.cast_natAbs, abs_of_nonneg (not_lt.mp hneg)]
    rw [habs]

theorem dropWhile_nonws {l : List Char} (h : ∀ c ∈ l, c.isWhitespace = false) :
    l.dropWhile Char.isWhitespace = l := by
  cases l with
  | nil => rfl
  | cons c cs =>
    rw [List.dropWhile_cons, h c (List.mem_cons_self _ _)]
    simp

theorem pyStrip_nonws {l : List Char} (h : ∀ c ∈ l, c.isWhitespace = false) :
    pyStrip l = l := by
  unfold pyStrip
  rw [dropWhile_nonws h]
  rw [dropWhile_nonws (fun c hc => h c (List.mem_reverse.mp hc))]
  exact List.reverse_reverse l

theorem format3_nonws (q : ℚ) : ∀ c ∈ format3 q, c.isWhitespace = false := by
  intro c hc
  unfold format3 at hc
  rcases List.mem_append.mp hc with h1 | h2
  · rcases List.mem_append.mp h1 with h3 | h4
    · split_ifs at h3
      · simp only [List.mem_singleton] at h3
        subst h3
        decide
      · exact absurd h3 (List.not_mem_nil c)
    · exact isDigit_not_ws (isDigits_mem (natToDigits_digits _) c h4)
  · rcases List.mem_cons.mp h2 with h5 | h6
    · subst h5
      decide
    · have hmod : (rhe (q * 1000)).natAbs % 1000 < 1000 := Nat.mod_lt _ (by norm_num)
      exact isDigit_not_ws (isDigits_mem (pad3_digits hmod) c h6)

theorem parseFloat_roundtrip (q : ℚ) :
    parseFloat (stripS (String.mk (format3 q))) = some (round3 q) := by
  show parseFloatChars (pyStrip (format3 q)) = some (round3 q)
  rw [pyStrip_nonws (format3_nonws q)]
  exact parseFloatChars_format3 q

/-- C6: writing any list of (start, end) segment pairs in the output format
("{start:.3f},{end:.3f}" per line) and re-parsing the text with
`parse_timestamps` yields the same pairs to millisecond precision: the
result is exactly the input with each endpoint rounded to 3 decimals (so the
identity whenever the endpoints already are whole milliseconds, as the
segments written by the silence tool are). -/
theorem write_parse_roundtrip :
    ∀ segs : List (ℚ × ℚ),
      parse_timestamps (write_timestamps segs)
        = segs.map (fun p => (round3 p.1, round3 p.2)) := by
  have key : ∀ (segs acc : List (ℚ × ℚ)),
      parseRows acc (write_timestamps segs)
        = acc ++ segs.map (fun p => (round3 p.1, round3 p.2)) := by
    intro segs
    induction segs with
    | nil => intro acc; simp [write_timestamps, parseRows]
    | cons p ps ih =>
      intro acc
      obtain ⟨a, b⟩ := p
      simp only [write_timestamps, List.map_cons] at ih ⊢
      rw [parseRows]
      rw [parseFloat_roundtrip a, parseFloat_roundtrip b]
      dsimp only
      rw [ih (acc ++ [(round3 a, round3 b)])]
      simp
  intro segs
  have h := key segs []
  simpa using h

theorem rowSpec_two (c0 c1 : String) (rest : List String) :
    rowSpec (c0 :: c1 :: rest) =
      match parseFloat (stripS c0), parseFloat (stripS c1) with
      | some s, some e => some (s, e)
      | _, _ => none := rfl

theorem parseFloat_digit_dot_digit (c0 f0 : Char) (hc : c0.isDigit = true)
    (hf : f0.isDigit = true) :
    parseFloat (stripS (String.mk [c0, '.', f0]))
      = some ((digitVal c0 : ℚ) + (digitVal f0 : ℚ) / 10) := by
  have hnws : ∀ c ∈ [c0, '.', f0], c.isWhitespace = false := by
    intro c hcmem
    rcases List.mem_cons.mp hcmem with h | h
    · subst h; exact isDigit_not_ws hc
    rcases List.mem_cons.mp h with h2 | h2
    · subst h2; decide
    rcases List.mem_cons.mp h2 with h3 | h3
    · subst h3; exact isDigit_not_ws hf
    · exact absurd h3 (List.not_mem_nil c)
  show parseFloatChars (pyStrip [c0, '.', f0]) = _
  rw [pyStrip_nonws hnws]
  rw [parseFloatChars_cons, if_neg (isDigit_ne_dash hc), if_neg (isDigit_ne_plus hc)]
  unfold parseUnsigned
  have hbd : breakDot [c0, '.', f0] = ([c0], some [f0]) := by
    simp [breakDot, isDigit_ne_dot hc]
  rw [hbd]
  dsimp only
  rw [if_pos ⟨Or.inl (by simp), by simp [isDigits, hc], by simp [isDigits, hf]⟩]
  have h1 : digitsToNat [c0] = digitVal c0 := by simp [digitsToNat]
  have h2 : digitsToNat [f0] = digitVal f0 := by simp [digitsToNat]
  rw [h1, h2]
  norm_num

theorem parseRows_filterMap (rows : List (List String)) :
    ∀ acc, parseRows acc rows = acc ++ rows.filterMap rowSpec := by
  induction rows with
  | nil => intro acc; simp [parseRows]
  | cons row rest ih =>
    intro acc
    cases row with
    | nil => simp [parseRows, rowSpec, ih]
    | cons c0 rowtl =>
      cases rowtl with
      | nil => simp [parseRows, rowSpec, ih]
      | cons c1 rest2 =>
        cases h0 : parseFloat (stripS c0) with
        | none =>
          cases h1 : parseFloat (stripS c1) with
          | none => simp [parseRows, rowSpec, h0, h1, ih]
          | some e => simp [parseRows, rowSpec, h0, h1, ih]
        | some s =>
          cases h1 : parseFloat (stripS c1) with
          | none => simp [parseRows, rowSpec, h0, h1, ih]
          | some e => simp [parseRows, rowSpec, h0, h1, ih]

/-- C5: `parse_timestamps` skips each row that is empty, has fewer than two
columns, or whose first two columns fail to parse as numbers, without
aborting the remaining rows: the result is exactly the row-wise
`filterMap` of the per-row parse; and the subsequent filter of `main`
retains exactly the parsed rows (s, e) with e > s and e − s ≥ the minimum
duration threshold.  In particular the spec's example: rows "1.0,2.0",
"bad,row", "3.0,6.0" parse to [(1, 2), (3, 6)], and with min-seg 0.5 both
are retained. -/
theorem parse_timestamps_spec :
    (∀ rows : List (List String), parse_timestamps rows = rows.filterMap rowSpec)
      ∧ (∀ (minSeg : ℚ) (rows : List (List String)) (p : ℚ × ℚ),
          p ∈ filterSegments minSeg (parse_timestamps rows)
            ↔ p ∈ rows.filterMap rowSpec ∧ p.1 < p.2 ∧ minSeg ≤ p.2 - p.1)
      ∧ parse_timestamps [["1.0", "2.0"], ["bad", "row"], ["3.0", "6.0"]] = [(1, 2), (3, 6)]
      ∧ filterSegments (1/2) [(1, 2), (3, 6)] = [(1, 2), (3, 6)] := by
  have hmain : ∀ rows : List (List String), parse_timestamps rows = rows.filterMap rowSpec :=
    fun rows => by simpa using parseRows_filterMap rows []
  refine ⟨hmain, ?_, ?_, ?_⟩
  · intro minSeg rows p
    rw [hmain]
    simp [filterSegments, List.mem_filter, and_assoc]
  · rw [hmain]
    have hs1 : ("1.0" : String) = String.mk ['1', '.', '0'] := rfl
    have hs2 : ("2.0" : String) = String.mk ['2', '.', '0'] := rfl
    have hs3 : ("3.0" : String) = String.mk ['3', '.', '0'] := rfl
    have hs6 : ("6.0" : String) = String.mk ['6', '.', '0'] := rfl
    have e1 := parseFloat_digit_dot_digit '1' '0' rfl rfl
    have e2 := parseFloat_digit_dot_digit '2' '0' rfl rfl
    have e3 := parseFloat_digit_dot_digit '3' '0' rfl rfl
    have e6 := parseFloat_digit_dot_digit '6' '0' rfl rfl
    have ebad : parseFloat (stripS "bad") = none := rfl
    simp only [List.filterMap_cons, List.filterMap_nil, rowSpec_two, hs1, hs2, hs3, hs6,
      e1, e2, e3, e6, ebad]
    have d0 : digitVal '0' = 0 := rfl
    have d1 : digitVal '1' = 1 := rfl
    have d2 : digitVal '2' = 2 := rfl
    have d3 : digitVal '3' = 3 := rfl
    have d6 : digitVal '6' = 6 := rfl
    simp only [d0, d1, d2, d3, d6]
    norm_num
  · simp only [filterSegments, List.filter]
    norm_num

/-! ## Input-file inference (`infer_audio_path`), for claim C7 -/

/-- A directory entry as seen by `infer_audio_path`: its stem (file name
without the final extension), its suffix (the final extension, dot
included), and whether it is a regular file. -/
structure Entry where
  stem : String
  suffix : String
  isFile : Bool

/-- Model of Python `str.lower()` (ASCII). -/
def lowerStr (s : String) : String := String.mk (s.data.map Char.toLower)

/-- The recognised media extensions of `infer_audio_path`
(`split_audio_by_csv.py`, line 32). -/
def exts : List String :=
  [".mp3", ".wav", ".m4a", ".flac", ".aac", ".ogg", ".wma", ".mp4", ".mkv", ".webm"]

/-- The candidate-base computation of `infer_audio_path`
(`split_audio_by_csv.py`, lines 33–35): `base = ts_path.stem`; if it ends
with "_segments", `base = base[:-10]`, i.e. the last TEN characters are
removed (although "_segments" is nine characters long). -/
def stripCandidate (stem : String) : String :=
  if "_segments".data.isSuffixOf stem.data then
    String.mk (stem.data.take (stem.data.length - 10))
  else stem

/-- The directory scan of `infer_audio_path` (`split_audio_by_csv.py`,
lines 36–44): return the first recognised media file whose stem equals the
candidate base; otherwise collect recognised media files, and at the end
return the collected file if there is exactly one, else nothing. -/
def inferLoop (base : String) (candidates : List Entry) : List Entry → Option Entry
  | [] =>
    match candidates with
    | [c] => some c
    | _ => none
  | p :: rest =>
    if p.isFile = true ∧ (lowerStr p.suffix) ∈ exts then
      if p.stem = base then some p
      else inferLoop base (candidates ++ [p]) rest
    else inferLoop base candidates rest

/-- `infer_audio_path` (`split_audio_by_csv.py`, lines 31–44), with the CSV
path's stem and the directory contents as inputs. -/
def infer_audio_path (tsStem : String) (entries : List Entry) : Option Entry :=
  inferLoop (stripCandidate tsStem) [] entries

/-- C7 (evaluation of the code at the failing input): for a CSV with stem
"song_segments" in a directory holding the media files song.mp3 and
other.mp3, the code strips TEN characters from the stem (though
"_segments" has nine), producing the candidate "son" instead of "song";
no stem matches "son", two media files are collected, and the scan
returns nothing — whereas stripping the "_segments" suffix itself yields
"song", whose unique match song.mp3 the claim requires. -/
theorem infer_audio_path_off_by_one :
    stripCandidate "song_segments" = "son"
      ∧ String.mk ("song_segments".data.take ("song_segments".data.length - 9)) = "song"
      ∧ infer_audio_path "song_segments"
          [⟨"song", ".mp3", true⟩, ⟨"other", ".mp3", true⟩] = none := by
  refine ⟨rfl, rfl, ?_⟩
  rfl

/-! ## Export duration (`export_segment`), for claim C8 -/

/-- The duration handed to the external tool by `export_segment`
(`split_audio_by_csv.py`, line 47, and identically
`split_audio_by_silence.py`, line 57): `t = max(end - start, 0.01)`. -/
def export_duration (start finish : ℚ) : ℚ := max (finish - start) (1/100)

/-- C8: for every start and end time, the duration passed to the external
tool equals max(end − start, 0.01); it is always strictly positive, and for
degenerate ranges with end ≤ start it equals 0.01 exactly. -/
theorem export_duration_pos (start finish : ℚ) :
    export_duration start finish = max (finish - start) (1/100)
      ∧ 0 < export_duration start finish
      ∧ (finish ≤ start → export_duration start finish = 1/100) := by
  refine ⟨rfl, ?_, ?_⟩
  · exact lt_of_lt_of_le (by norm_num : (0 : ℚ) < 1/100) (le_max_right _ _)
  · intro h
    exact max_eq_right (by linarith)

theorem export_duration_pos_witness :
    (export_duration 5 3 = max ((3 : ℚ) - 5) (1/100) ∧ 0 < export_duration 5 3)
      ∧ export_duration 5 3 = 1/100 :=
  ⟨⟨(export_duration_pos 5 3).1, (export_duration_pos 5 3).2.1⟩,
   (export_duration_pos 5 3).2.2 (by norm_num)⟩

/-! ## Dry-run control flow of the CSV splitter, for claim C9 -/

/-- The tool-touching actions `main` of `split_audio_by_csv.py` can perform:
checking that the external tools are installed, exporting a segment with the
external tool, and printing a planned export. -/
inductive Action where
  | checkTools
  | exportSeg (start finish : ℚ)
  | printPlan (start finish : ℚ)

/-- The control flow of `main` (`split_audio_by_csv.py`, lines 75–106),
modelled as the sequence of tool-touching actions performed, over all of
its branches: `dryRun` is the --dry-run flag, `inputArg` the explicit
--input file (already resolved to an entry) if given, `inferred` the result
of `infer_audio_path` (consulted only when --input is absent),
`inputExists` whether the chosen input file exists, and `segments` the
filtered segments.  Early returns and `sys.exit` paths perform no tool
action; the pure prints other than the per-segment plan are not tool
actions and are omitted. -/
def mainActions (dryRun : Bool) (inputArg : Option Entry) (inferred : Option Entry)
    (inputExists : Bool) (segments : List (ℚ × ℚ)) : List Action :=
  if dryRun && inputArg.isNone then []
  else
    match (if inputArg.isSome then inputArg else inferred) with
    | none => []
    | some _ =>
      if !inputExists then []
      else
        (if !dryRun then [Action.checkTools] else []) ++
          segments.map (fun p =>
            if dryRun then Action.printPlan p.1 p.2 else Action.exportSeg p.1 p.2)

/-- C9: in dry-run mode the CSV splitter never invokes the external media
tool and never checks for its installation: for every combination of
inputs, the dry-run action trace contains no `exportSeg` and no
`checkTools`, and every action in it is a plan print for one of the
segments. -/
theorem dry_run_no_tools (inputArg inferred : Option Entry) (inputExists : Bool)
    (segments : List (ℚ × ℚ)) :
    Action.checkTools ∉ mainActions true inputArg inferred inputExists segments
      ∧ (∀ s e : ℚ,
          Action.exportSeg s e ∉ mainActions true inputArg inferred inputExists segments)
      ∧ ∀ a ∈ mainActions true inputArg inferred inputExists segments,
          ∃ p ∈ segments, a = Action.printPlan p.1 p.2 := by
  cases inputArg with
  | none => simp [mainActions]
  | some inp =>
    cases inputExists with
    | false => simp [mainActions]
    | true =>
      refine ⟨?_, ?_, ?_⟩
      · simp [mainActions]
      · intro s e
        simp [mainActions]
      · intro a ha
        simp [mainActions, List.mem_map] at ha
        obtain ⟨x, y, hmem, rfl⟩ := ha
        exact ⟨(x, y), hmem, rfl⟩

end AudioSplit
